import Mathlib

/-!
Verification of the frabit command-execution engine
(`frabit/command_wrappers.py`): a shallow embedding of the
line-oriented stream processor, the UTF-8 permissive decoder it relies
on, the shell-quoting primitive, the signal-forwarding handler, the
retry engine around `Command.get_output`, and the `select`-based
stream-draining loop, together with theorems settling the specified
behavioural properties.
-/

/-! ## Character constants (written via code points to keep the text plain) -/

def NL : Char := Char.ofNat 10

def TAB : Char := Char.ofNat 9

def SP : Char := Char.ofNat 32

def DQ : Char := Char.ofNat 34

def DOLLAR : Char := Char.ofNat 36

def SQ : Char := Char.ofNat 39

def BSL : Char := Char.ofNat 92

def BQ : Char := Char.ofNat 96

/-- The Unicode replacement character produced by permissive decoding. -/
def repl : Char := Char.ofNat 0xFFFD

/-- `errno.EINTR` on Linux. -/
def EINTR : Nat := 4

/-- `signal.SIGTERM` on Linux. -/
def SIGTERM : Nat := 15

/-! ## Permissive UTF-8 decoding

Embedding of Python `bytes.decode(utf8, replace)` as used by
`StreamLineProcessor.process`: well-formed sequences decode to their
code point; an invalid or truncated sequence contributes one
replacement character for its maximal valid subpart and decoding
resumes at the first offending byte (CPython semantics). -/

def isCont (b : Nat) : Bool := decide (0x80 ≤ b) && decide (b ≤ 0xBF)

/-- Constraint on the second byte of a three-byte sequence with lead `b`. -/
def cont2ok (b b2 : Nat) : Bool :=
  if b = 0xE0 then decide (0xA0 ≤ b2) && decide (b2 ≤ 0xBF)
  else if b = 0xED then decide (0x80 ≤ b2) && decide (b2 ≤ 0x9F)
  else isCont b2

/-- Constraint on the second byte of a four-byte sequence with lead `b`. -/
def cont3ok (b b2 : Nat) : Bool :=
  if b = 0xF0 then decide (0x90 ≤ b2) && decide (b2 ≤ 0xBF)
  else if b = 0xF4 then decide (0x80 ≤ b2) && decide (b2 ≤ 0x8F)
  else isCont b2

def utf8ReplaceDecode : List Nat → List Char
  | [] => []
  | b :: rest =>
    if b < 0x80 then Char.ofNat b :: utf8ReplaceDecode rest
    else if b < 0xC2 then repl :: utf8ReplaceDecode rest
    else if b < 0xE0 then
      match rest with
      | [] => [repl]
      | b2 :: rest2 =>
        if isCont b2 then Char.ofNat ((b - 0xC0) * 0x40 + (b2 - 0x80)) :: utf8ReplaceDecode rest2
        else repl :: utf8ReplaceDecode (b2 :: rest2)
    else if b < 0xF0 then
      match rest with
      | [] => [repl]
      | b2 :: rest2 =>
        if cont2ok b b2 then
          match rest2 with
          | [] => [repl]
          | b3 :: rest3 =>
            if isCont b3 then
              Char.ofNat ((b - 0xE0) * 0x1000 + (b2 - 0x80) * 0x40 + (b3 - 0x80)) ::
                utf8ReplaceDecode rest3
            else repl :: utf8ReplaceDecode (b3 :: rest3)
        else repl :: utf8ReplaceDecode (b2 :: rest2)
    else if b < 0xF5 then
      match rest with
      | [] => [repl]
      | b2 :: rest2 =>
        if cont3ok b b2 then
          match rest2 with
          | [] => [repl]
          | b3 :: rest3 =>
            if isCont b3 then
              match rest3 with
              | [] => [repl]
              | b4 :: rest4 =>
                if isCont b4 then
                  Char.ofNat
                      ((b - 0xF0) * 0x40000 + (b2 - 0x80) * 0x1000 + (b3 - 0x80) * 0x40 +
                        (b4 - 0x80)) ::
                    utf8ReplaceDecode rest4
                else repl :: utf8ReplaceDecode (b4 :: rest4)
            else repl :: utf8ReplaceDecode (b3 :: rest3)
        else repl :: utf8ReplaceDecode (b2 :: rest2)
    else repl :: utf8ReplaceDecode rest

/-! ## Splitting on newline

`splitNL` embeds the Python expression `text.split(chr(10))`: the list
of fragments between newline characters, always non-empty, with the
(possibly empty) trailing fragment last. -/

/-- Prepend a character to the first fragment of a split result. -/
def consHead (c : Char) : List (List Char) → List (List Char)
  | [] => [[c]]
  | l :: ls => (c :: l) :: ls

def splitNL : List Char → List (List Char)
  | [] => [[]]
  | c :: r => if c = NL then [] :: splitNL r else consHead c (splitNL r)

/-- The last fragment of a split result (Python `tmp[-1]`, total). -/
def lastD : List (List Char) → List Char
  | [] => []
  | [l] => l
  | _ :: l :: ls => lastD (l :: ls)

/-- Proof helper: `splitNL` presented as (complete lines, trailing remainder). -/
def splitF : List Char → List (List Char) × List Char
  | [] => ([], [])
  | c :: r =>
    let p := splitF r
    if c = NL then ([] :: p.1, p.2)
    else
      match p.1 with
      | [] => ([], c :: p.2)
      | l :: ls => ((c :: l) :: ls, p.2)

/-! ## `StreamLineProcessor`

The buffered line reader. The state is the internal partial-line
buffer `_buf`; one `process` call consumes the result of one bounded
`os.read` (a byte chunk, the empty chunk denoting end-of-stream) and
returns the lines handed to the handler, the successor state, and the
end-of-stream flag. -/

structure StreamLineProcessor where
  buf : List Char
deriving DecidableEq, Repr

def StreamLineProcessor.process (st : StreamLineProcessor) (data : List Nat) :
    List (List Char) × StreamLineProcessor × Bool :=
  if data = [] then ([st.buf], ⟨[]⟩, true)
  else
    let buf := st.buf ++ utf8ReplaceDecode data
    if NL ∉ buf then ([], ⟨buf⟩, false)
    else
      let tmp := splitNL buf
      (tmp.dropLast, ⟨lastD tmp⟩, false)

/-- Proof helper: the same step on already-decoded text. -/
def processChars (st : StreamLineProcessor) (data : List Char) :
    List (List Char) × StreamLineProcessor × Bool :=
  if data = [] then ([st.buf], ⟨[]⟩, true)
  else
    let buf := st.buf ++ data
    if NL ∉ buf then ([], ⟨buf⟩, false)
    else
      let tmp := splitNL buf
      (tmp.dropLast, ⟨lastD tmp⟩, false)

/-- Feed the listed byte chunks to `process` one by one, then the final
zero-byte read; collect every line handed to the handler, stopping if
end-of-stream is reported early. -/
def runChunks (st : StreamLineProcessor) : List (List Nat) → List (List Char)
  | [] => (st.process []).1
  | d :: ds =>
    let r := st.process d
    if r.2.2 then r.1 else r.1 ++ runChunks r.2.1 ds

/-- Proof helper: the driver on already-decoded chunks. -/
def runChunksChars (st : StreamLineProcessor) : List (List Char) → List (List Char)
  | [] => (processChars st []).1
  | d :: ds =>
    let r := processChars st d
    if r.2.2 then r.1 else r.1 ++ runChunksChars r.2.1 ds

/-! ## Shell quoting (`shell_quote`) -/

/-- Replacement applied to one character by
`arg.replace(quote, quote backslash quote quote)`. -/
def shellEsc (c : Char) : List Char := if c = SQ then [SQ, BSL, SQ, SQ] else [c]

def shell_quote (arg : List Char) : List Char := [SQ] ++ arg.flatMap shellEsc ++ [SQ]

/-- Modelled from the spec: POSIX shell quote removal and field
splitting, the external shell behaviour the quoting round-trip is
stated against (the shell itself is not part of this repository).
States are outside quotes, inside single quotes, inside double quotes;
backslash escapes outside quotes, unquoted blanks separate fields,
expansions and unterminated quotes are rejected (`none`). -/
inductive QMode
  | normal
  | single
  | double

def shellFieldsAux : QMode → List Char → Bool → List Char → Option (List (List Char))
  | .normal, [], started, cur => some (if started then [cur] else [])
  | .normal, c :: r, started, cur =>
    if c = SP || c = TAB then
      if started then (fun fs => cur :: fs) <$> shellFieldsAux .normal r false []
      else shellFieldsAux .normal r false []
    else if c = BSL then
      match r with
      | [] => none
      | c2 :: r2 => shellFieldsAux .normal r2 true (cur ++ [c2])
    else if c = SQ then shellFieldsAux .single r true cur
    else if c = DQ then shellFieldsAux .double r true cur
    else shellFieldsAux .normal r true (cur ++ [c])
  | .single, [], _, _ => none
  | .single, c :: r, _, cur =>
    if c = SQ then shellFieldsAux .normal r true cur
    else shellFieldsAux .single r true (cur ++ [c])
  | .double, [], _, _ => none
  | .double, c :: r, _, cur =>
    if c = DQ then shellFieldsAux .normal r true cur
    else if c = BSL then
      match r with
      | [] => none
      | c2 :: r2 =>
        if c2 = DQ || c2 = BSL || c2 = DOLLAR || c2 = BQ then
          shellFieldsAux .double r2 true (cur ++ [c2])
        else shellFieldsAux .double r2 true (cur ++ [c, c2])
    else if c = DOLLAR || c = BQ then none
    else shellFieldsAux .double r true (cur ++ [c])

/-- The fields a POSIX shell extracts from one piece of command-line text. -/
def shellFields (s : List Char) : Option (List (List Char)) := shellFieldsAux .normal s false []

/-! ## Signal forwarding (`Command.enable_signal_forwarding`) -/

/-- Previous disposition of the signal at installation time:
a Python-callable handler (opaque), `SIG_DFL`, or `SIG_IGN`. -/
inductive Disposition
  | callableHandler
  | SIG_DFL
  | SIG_IGN
deriving DecidableEq

/-- Observable effects of one delivery of the forwarded signal. -/
structure ForwardEffects where
  forwarded : Bool
  chainedOld : Bool
  exited : Option Nat
deriving DecidableEq, Repr

def noEffects : ForwardEffects := ⟨false, false, none⟩

/-- The closure installed by `enable_signal_forwarding`: forward the
signal when a live child handle exists, then chain to a callable
previous handler, else exit on `SIG_DFL` + `SIGTERM`. -/
def Command.signalForwardHandler (pipeLive : Bool) (signal_id : Nat) (old : Disposition) :
    ForwardEffects :=
  match old with
  | .callableHandler => ⟨pipeLive, true, none⟩
  | .SIG_DFL => ⟨pipeLive, false, if signal_id = SIGTERM then some (128 + signal_id) else none⟩
  | .SIG_IGN => ⟨pipeLive, false, none⟩

/-! ## The `Command` retry engine

Exceptions, configuration, the mutable attributes (`ret`, `out`,
`err`, `pipe`), and the methods `check_return_value`, `execute`,
`_get_output_once`, `get_output` and `__call__`. The child process of
one attempt is abstracted by `ChildBehavior`: the sequence of lines
each handler receives while draining (completed lines then the final
fragment) and the exit code; `get_output` consumes one such behaviour
per attempt. -/

/-- Payload of `CommandFailedException(dict(ret, out, err))`. -/
structure FailDetail where
  ret : Option Int
  out : Option String
  err : Option String
deriving DecidableEq, Repr

inductive PyErr
  | cmdFailed (d : FailDetail)
  | maxRetry (d : FailDetail)
  | typeError (key : String)
deriving DecidableEq, Repr

instance instDecEqExcept {e a : Type} [DecidableEq e] [DecidableEq a] : DecidableEq (Except e a)
  | .ok x, .ok y =>
    if h : x = y then .isTrue (by rw [h]) else .isFalse (by intro hc; cases hc; exact h rfl)
  | .ok _, .error _ => .isFalse (by intro hc; cases hc)
  | .error _, .ok _ => .isFalse (by intro hc; cases hc)
  | .error x, .error y =>
    if h : x = y then .isTrue (by rw [h]) else .isFalse (by intro hc; cases hc; exact h rfl)

/-- The configuration fixed by `Command.__init__` (the fields the
modelled claims depend on; `retry_handler` is kept as presence only). -/
structure Command where
  check : Bool
  allowed_retval : List Int
  retry_times : Nat
  retry_sleep : Nat
  hasRetryHandler : Bool
deriving DecidableEq

/-- The mutable attributes of a `Command` object. -/
structure CmdState where
  ret : Option Int
  out : Option String
  err : Option String
  pipeLive : Bool
deriving DecidableEq, Repr

/-- Attribute values set by `Command.__init__`. -/
def initState : CmdState := ⟨none, none, none, false⟩

/-- Per-call keyword overrides: the recognised keys that influence the
modelled observables, plus the names of any unrecognised keys
(`stdin`, `close_fds` and the handler overrides are recognised but do
not affect the modelled state). -/
structure Overrides where
  check : Option Bool
  allowed_retval : Option (List Int)
  extra : List String
deriving DecidableEq

def noOverrides : Overrides := ⟨none, none, []⟩

/-- One attempt of the child process: the line sequences delivered to
the output and error handlers and the exit code. -/
structure ChildBehavior where
  outLines : List String
  errLines : List String
  code : Int
deriving DecidableEq

/-- Python `(chr(10)).join(lines)`. -/
def joinLines (lines : List String) : String := String.intercalate "\n" lines

def Command.check_return_value (st : CmdState) (allowed_retval : List Int) : Except PyErr Unit :=
  if st.ret ∈ allowed_retval.map some then .ok ()
  else .error (.cmdFailed ⟨st.ret, st.out, st.err⟩)

structure ExecOutcome where
  state : CmdState
  spawned : Bool
  result : Except PyErr Int
deriving DecidableEq

/-- `Command.execute`: reject unknown keyword names before spawning,
otherwise reset the status attributes, spawn and drain the child,
record the exit code, clear the pipe handle, and apply the exit-code
check when enabled for the call. -/
def Command.execute (cfg : Command) (st : CmdState) (ov : Overrides) (child : ChildBehavior) :
    ExecOutcome :=
  let chk := ov.check.getD cfg.check
  let allowed := ov.allowed_retval.getD cfg.allowed_retval
  match ov.extra with
  | k :: _ => ⟨st, false, .error (.typeError k)⟩
  | [] =>
    let st2 : CmdState := ⟨some child.code, none, none, false⟩
    match (if chk then Command.check_return_value st2 allowed else .ok ()) with
    | .error e => ⟨st2, true, .error e⟩
    | .ok _ => ⟨st2, true, .ok child.code⟩

structure OnceOutcome where
  state : CmdState
  spawned : Bool
  result : Except PyErr (String × String)
deriving DecidableEq

/-- `Command._get_output_once`: run `execute` with collecting handlers
and checking forced off, join the collected lines into `out`/`err`,
then apply the exit-code check resolved for this call. -/
def Command.get_output_once (cfg : Command) (st : CmdState) (ov : Overrides)
    (child : ChildBehavior) : OnceOutcome :=
  let chk := ov.check.getD cfg.check
  let allowed := ov.allowed_retval.getD cfg.allowed_retval
  let ex := Command.execute cfg st ⟨some false, none, ov.extra⟩ child
  match ex.result with
  | .error e => ⟨ex.state, ex.spawned, .error e⟩
  | .ok _ =>
    let st2 : CmdState :=
      ⟨ex.state.ret, some (joinLines child.outLines), some (joinLines child.errLines),
        ex.state.pipeLive⟩
    match (if chk then Command.check_return_value st2 allowed else .ok ()) with
    | .error e => ⟨st2, ex.spawned, .error e⟩
    | .ok _ => ⟨st2, ex.spawned, .ok (joinLines child.outLines, joinLines child.errLines)⟩

/-- Observable events of one `get_output` run: the start of each
attempt (counter value), a child spawn, an invocation of the retry
handler with the attempt counter and the caught failure (the command
object and the original call arguments, which are fixed across the
run, are implicit), and an inter-attempt sleep of the given seconds. -/
inductive Event
  | attemptStart (i : Nat)
  | spawn
  | retryCall (attempt : Nat) (exc : FailDetail)
  | sleep (secs : Nat)
deriving DecidableEq, Repr

structure GOOutcome where
  state : CmdState
  events : List Event
  result : Except PyErr (String × String)
deriving DecidableEq

/-- The retry loop of `Command.get_output`, by recursion on the fuel
`retry_times + 1 - attempt` (the loop performs at most that many
further iterations; `get_output` supplies exactly enough). -/
def Command.getOutputAux (cfg : Command) (ov : Overrides) (children : Nat → ChildBehavior) :
    Nat → Nat → CmdState → Option GOOutcome
  | 0, _, _ => none
  | fuel + 1, attempt, st =>
    let once := Command.get_output_once cfg st ov (children attempt)
    let evs0 := Event.attemptStart attempt :: (if once.spawned then [Event.spawn] else [])
    match once.result with
    | .ok oe => some ⟨once.state, evs0, .ok oe⟩
    | .error (.cmdFailed d) =>
      if attempt < cfg.retry_times then
        match Command.getOutputAux cfg ov children fuel (attempt + 1) once.state with
        | none => none
        | some rest =>
          some ⟨rest.state,
            evs0 ++ (if cfg.hasRetryHandler then [Event.retryCall attempt d] else []) ++
              [Event.sleep cfg.retry_sleep] ++ rest.events,
            rest.result⟩
      else some ⟨once.state, evs0, .error (if attempt = 0 then .cmdFailed d else .maxRetry d)⟩
    | .error e => some ⟨once.state, evs0, .error e⟩

/-- `Command.get_output`: the retry loop started at attempt 0. -/
def Command.get_output (cfg : Command) (ov : Overrides) (children : Nat → ChildBehavior)
    (st : CmdState) : Option GOOutcome :=
  Command.getOutputAux cfg ov children (cfg.retry_times + 1) 0 st

/-- `Command.__call__`: `get_output` followed by returning `self.ret`. -/
def Command.call (cfg : Command) (ov : Overrides) (children : Nat → ChildBehavior)
    (st : CmdState) : Option (CmdState × List Event × Except PyErr (Option Int)) :=
  match Command.get_output cfg ov children st with
  | none => none
  | some g =>
    some (g.state, g.events,
      match g.result with
      | .ok _ => .ok g.state.ret
      | .error e => .error e)

/-- The exception payload produced by a failing attempt with the given
child behaviour, on the `_get_output_once` path. -/
def detailOf (c : ChildBehavior) : FailDetail :=
  ⟨some c.code, some (joinLines c.outLines), some (joinLines c.errLines)⟩

/-- The attribute values left by one completed `_get_output_once` attempt. -/
def stateAfter (c : ChildBehavior) : CmdState :=
  ⟨some c.code, some (joinLines c.outLines), some (joinLines c.errLines), false⟩

/-- The event trace of a `get_output` run whose attempts `a, ..., a+k`
all fail the exit-code check: each attempt starts and spawns, and
every attempt but the last is followed by the retry-handler call (when
one is configured) and the inter-attempt sleep. -/
def failTrace (cfg : Command) (children : Nat → ChildBehavior) (a k : Nat) : List Event :=
  (List.range' a (k + 1)).flatMap (fun i =>
    [Event.attemptStart i, Event.spawn] ++
      (if i < a + k then
        (if cfg.hasRetryHandler then [Event.retryCall i (detailOf (children i))] else []) ++
          [Event.sleep cfg.retry_sleep]
      else []))

/-! ## The stream-draining loop (`Command.pipe_processor_loop`)

One `Proc` is a `StreamLineProcessor` over a stream identified by
`tag`, whose future `os.read` results are `chunks` (exhaustion of the
list means the next read returns zero bytes). The environment is a
schedule of `select.select` outcomes: either a readiness mask over the
still-registered processors or an error code. -/

structure Proc where
  tag : Nat
  slp : StreamLineProcessor
  chunks : List (List Nat)
deriving DecidableEq

inductive SelEvent
  | ready (mask : List Bool)
  | serr (code : Nat)
deriving DecidableEq

/-- One `process()` call on a ready processor: the emitted lines and
the surviving processor (`none` when it reported end-of-stream). -/
def readProc (p : Proc) : List (List Char) × Option Proc :=
  let r := StreamLineProcessor.process p.slp (p.chunks.headD [])
  (r.1, if r.2.2 then none else some ⟨p.tag, r.2.1, p.chunks.tail⟩)

/-- Process every ready processor once, in registration order,
removing those that reached end-of-stream; returns the surviving
processors and the tagged lines emitted. -/
def processReady : List Proc → List Bool → List Proc × List (Nat × List Char)
  | [], _ => ([], [])
  | ps, [] => (ps, [])
  | p :: ps, s :: mask =>
    let pr := processReady ps mask
    if s then
      let r := readProc p
      match r.2 with
      | none => (pr.1, r.1.map (fun l => (p.tag, l)) ++ pr.2)
      | some p' => (p' :: pr.1, r.1.map (fun l => (p.tag, l)) ++ pr.2)
    else (p :: pr.1, pr.2)

/-- `Command.pipe_processor_loop` driven by a schedule of select
outcomes: loop while processors remain, retrying on `EINTR`,
propagating any other select failure, processing each ready stream and
dropping it at end-of-stream. The boolean reports whether the loop
terminated (all processors done) before the schedule ran out. -/
def Command.pipe_processor_loop : List SelEvent → List Proc →
    Except Nat (List (Nat × List Char) × Bool)
  | _, [] => .ok ([], true)
  | [], _ :: _ => .ok ([], false)
  | .serr c :: sched, p :: ps =>
    if c = EINTR then Command.pipe_processor_loop sched (p :: ps) else .error c
  | .ready mask :: sched, p :: ps =>
    let pr := processReady (p :: ps) mask
    match Command.pipe_processor_loop sched pr.1 with
    | .error c => .error c
    | .ok r => .ok (pr.2 ++ r.1, r.2)

/-- A schedule is valid for the given processors when every select
outcome is either `EINTR` or a readiness mask of the right length
selecting at least one registered processor. -/
def validSched : List SelEvent → List Proc → Bool
  | [], _ => true
  | .serr c :: sched, procs => decide (c = EINTR) && validSched sched procs
  | .ready mask :: sched, procs =>
    decide (mask.length = procs.length) && mask.any id &&
      validSched sched (processReady procs mask).1

def countReady : List SelEvent → Nat
  | [] => 0
  | .ready _ :: s => countReady s + 1
  | .serr _ :: s => countReady s

/-- Number of `os.read` calls still needed to drain all processors. -/
def totalReads (procs : List Proc) : Nat := (procs.map (fun p => p.chunks.length + 1)).sum

/-- The full line sequence a processor's handler receives. -/
def procLines (p : Proc) : List (List Char) := runChunks p.slp p.chunks

/-- The tagged lines every processor will deliver, stream by stream. -/
def expectedAll (procs : List Proc) : List (Nat × List Char) :=
  procs.flatMap (fun p => (procLines p).map (fun l => (p.tag, l)))

/-- The lines delivered for one stream, in order. -/
def eventsFor (t : Nat) (evs : List (Nat × List Char)) : List (List Char) :=
  (evs.filter (fun e => decide (e.1 = t))).map Prod.snd

/-! ## Helper lemmas: single attempts -/

theorem get_output_once_typeError (cfg : Command) (st : CmdState) (ov : Overrides)
    (child : ChildBehavior) (k : String) (ks : List String) (hext : ov.extra = k :: ks) :
    Command.get_output_once cfg st ov child = ⟨st, false, .error (.typeError k)⟩ := by
  simp [Command.get_output_once, Command.execute, hext]

theorem get_output_once_nocheck (cfg : Command) (st : CmdState) (ov : Overrides)
    (child : ChildBehavior) (hext : ov.extra = [])
    (hchk : ov.check.getD cfg.check = false) :
    Command.get_output_once cfg st ov child =
      ⟨stateAfter child, true, .ok (joinLines child.outLines, joinLines child.errLines)⟩ := by
  simp [Command.get_output_once, Command.execute, hext, hchk, stateAfter]

theorem get_output_once_fail (cfg : Command) (st : CmdState) (ov : Overrides)
    (child : ChildBehavior) (hext : ov.extra = [])
    (hchk : ov.check.getD cfg.check = true)
    (hfail : child.code ∉ ov.allowed_retval.getD cfg.allowed_retval) :
    Command.get_output_once cfg st ov child =
      ⟨stateAfter child, true, .error (.cmdFailed (detailOf child))⟩ := by
  simp [Command.get_output_once, Command.execute, Command.check_return_value, hext, hchk,
    stateAfter, detailOf, List.mem_map, hfail]

/-! ## Helper lemmas: the retry loop when every attempt fails -/

theorem failTrace_zero (cfg : Command) (children : Nat → ChildBehavior) (a : Nat) :
    failTrace cfg children a 0 = [Event.attemptStart a, Event.spawn] := by
  simp [failTrace, List.range'_one]

theorem failTrace_succ (cfg : Command) (children : Nat → ChildBehavior) (a k : Nat) :
    failTrace cfg children a (k + 1) =
      [Event.attemptStart a, Event.spawn] ++
        (if cfg.hasRetryHandler then [Event.retryCall a (detailOf (children a))] else []) ++
          [Event.sleep cfg.retry_sleep] ++ failTrace cfg children (a + 1) k := by
  have h : a + (k + 1) = a + 1 + k := by omega
  simp only [failTrace, List.range'_succ, List.flatMap_cons, h]
  have ha : a < a + 1 + k := by omega
  simp [ha, List.append_assoc]

theorem getOutputAux_allfail (cfg : Command) (ov : Overrides) (children : Nat → ChildBehavior)
    (hext : ov.extra = [])
    (hchk : ov.check.getD cfg.check = true)
    (hfail : ∀ i, (children i).code ∉ ov.allowed_retval.getD cfg.allowed_retval) :
    ∀ k a st, a + k = cfg.retry_times →
      Command.getOutputAux cfg ov children (k + 1) a st =
        some ⟨stateAfter (children (a + k)), failTrace cfg children a k,
          .error (if a + k = 0 then .cmdFailed (detailOf (children (a + k)))
            else .maxRetry (detailOf (children (a + k))))⟩ := by
  intro k
  induction k with
  | zero =>
    intro a st ha
    rw [Command.getOutputAux, get_output_once_fail cfg st ov (children a) hext hchk (hfail a)]
    have hlt : ¬ a < cfg.retry_times := by omega
    simp [hlt, failTrace_zero]
  | succ k ih =>
    intro a st ha
    rw [Command.getOutputAux, get_output_once_fail cfg st ov (children a) hext hchk (hfail a)]
    have hlt : a < cfg.retry_times := by omega
    rw [ih (a + 1) (stateAfter (children a)) (by omega)]
    have h1 : a + 1 + k = a + (k + 1) := by omega
    have h2 : ¬ a + 1 + k = 0 := by omega
    simp only [hlt, if_true, h2, if_false, h1]
    have h3 : ¬ a + (k + 1) = 0 := by omega
    simp [failTrace_succ, h3, List.append_assoc]

/-- Claim C5 counterexample: with no live child handle, delivering the
forwarded signal when the previous disposition was `SIG_DFL` and the
signal is `SIGTERM` terminates the controlling process with exit
status `128 + SIGTERM` — it is not a no-op and does not return
normally, refuting "a no-op regardless of the previously installed
handler or disposition". -/
theorem c5_sigdfl_sigterm_exits :
    Command.signalForwardHandler false SIGTERM Disposition.SIG_DFL ≠ noEffects ∧
      (Command.signalForwardHandler false SIGTERM Disposition.SIG_DFL).exited = some 143 := by
  decide

/-- Claim C5 (amended): after `enable_signal_forwarding`, delivering
the signal while no child is live never forwards anything to a child;
if the previous disposition was `SIG_IGN`, or `SIG_DFL` with any
signal other than `SIGTERM`, the delivery is a complete no-op; a
callable previous handler is chained to; and with `SIG_DFL` and
`SIGTERM` the controller exits with status `128 + SIGTERM`. -/
theorem c5_no_child_forwarding_noop (signal_id : Nat) (old : Disposition) :
    (Command.signalForwardHandler false signal_id old).forwarded = false ∧
      (old = Disposition.SIG_IGN →
        Command.signalForwardHandler false signal_id old = noEffects) ∧
      (old = Disposition.SIG_DFL → signal_id ≠ SIGTERM →
        Command.signalForwardHandler false signal_id old = noEffects) ∧
      (old = Disposition.callableHandler →
        Command.signalForwardHandler false signal_id old = ⟨false, true, none⟩) := by
  cases old <;> simp [Command.signalForwardHandler, noEffects]

theorem c5_witness :
    ((Command.signalForwardHandler false 10 Disposition.SIG_DFL).forwarded = false ∧
        (Disposition.SIG_DFL = Disposition.SIG_IGN →
          Command.signalForwardHandler false 10 Disposition.SIG_DFL = noEffects) ∧
        (Disposition.SIG_DFL = Disposition.SIG_DFL → (10 : Nat) ≠ SIGTERM →
          Command.signalForwardHandler false 10 Disposition.SIG_DFL = noEffects) ∧
        (Disposition.SIG_DFL = Disposition.callableHandler →
          Command.signalForwardHandler false 10 Disposition.SIG_DFL = ⟨false, true, none⟩)) ∧
      Command.signalForwardHandler false 10 Disposition.SIG_DFL = noEffects :=
  ⟨c5_no_child_forwarding_noop 10 Disposition.SIG_DFL,
    (c5_no_child_forwarding_noop 10 Disposition.SIG_DFL).2.2.1 rfl (by decide)⟩

/-- Claim C2: with retry count `R ≥ 1`, a configured retry handler and
every attempt failing the exit-code check, `get_output` performs
exactly `R + 1` attempts (spawning a child each time), invokes the
retry handler exactly `R` times with the attempt counter starting at 0
and the caught failure, sleeps `retry_sleep` between consecutive
attempts, and finally raises `CommandMaxRetryExceeded` wrapping the
last failure's detail. -/
theorem c2_retries_exhausted (cfg : Command) (ov : Overrides) (children : Nat → ChildBehavior)
    (hR : 1 ≤ cfg.retry_times) (hH : cfg.hasRetryHandler = true)
    (hext : ov.extra = []) (hchk : ov.check.getD cfg.check = true)
    (hfail : ∀ i, (children i).code ∉ ov.allowed_retval.getD cfg.allowed_retval) :
    Command.get_output cfg ov children initState =
      some ⟨stateAfter (children cfg.retry_times),
        (List.range (cfg.retry_times + 1)).flatMap (fun i =>
          [Event.attemptStart i, Event.spawn] ++
            (if i < cfg.retry_times then
              [Event.retryCall i (detailOf (children i)), Event.sleep cfg.retry_sleep]
            else [])),
        .error (.maxRetry (detailOf (children cfg.retry_times)))⟩ := by
  rw [Command.get_output,
    getOutputAux_allfail cfg ov children hext hchk hfail cfg.retry_times 0 initState (by omega)]
  have h0 : ¬ (cfg.retry_times = 0) := by omega
  simp only [Nat.zero_add, h0, if_false]
  congr 1
  simp [failTrace, hH, List.range_eq_range']

theorem c2_witness :
    (1 ≤ (⟨true, [0], 2, 7, true⟩ : Command).retry_times) ∧
      (Command.get_output ⟨true, [0], 2, 7, true⟩ noOverrides
          (fun _ => ⟨["a"], ["b"], 1⟩) initState).isSome = true := by
  refine ⟨by decide, ?_⟩
  rw [c2_retries_exhausted ⟨true, [0], 2, 7, true⟩ noOverrides (fun _ => ⟨["a"], ["b"], 1⟩)
    (by decide) rfl rfl rfl (fun _ => by show ¬ (1 : Int) ∈ ([0] : List Int); decide)]
  rfl

/-- Claim C3: with retry count 0 and exit-code checking enabled, a
failing command causes exactly one attempt, no retry-handler call, and
the original `CommandFailedException` is raised, not
`CommandMaxRetryExceeded`. -/
theorem c3_no_retry_raises_original (cfg : Command) (ov : Overrides)
    (children : Nat → ChildBehavior) (hR0 : cfg.retry_times = 0)
    (hext : ov.extra = []) (hchk : ov.check.getD cfg.check = true)
    (hfail : ∀ i, (children i).code ∉ ov.allowed_retval.getD cfg.allowed_retval) :
    Command.get_output cfg ov children initState =
      some ⟨stateAfter (children 0), [Event.attemptStart 0, Event.spawn],
        .error (.cmdFailed (detailOf (children 0)))⟩ := by
  rw [Command.get_output, hR0,
    getOutputAux_allfail cfg ov children hext hchk hfail 0 0 initState (by omega)]
  simp [failTrace_zero]

theorem c3_witness :
    ((⟨true, [0], 0, 0, false⟩ : Command).retry_times = 0) ∧
      Command.get_output ⟨true, [0], 0, 0, false⟩ noOverrides
          (fun _ => ⟨["a"], ["b"], 1⟩) initState =
        some ⟨stateAfter ⟨["a"], ["b"], 1⟩, [Event.attemptStart 0, Event.spawn],
          .error (.cmdFailed (detailOf ⟨["a"], ["b"], 1⟩))⟩ :=
  ⟨rfl, c3_no_retry_raises_original ⟨true, [0], 0, 0, false⟩ noOverrides
    (fun _ => ⟨["a"], ["b"], 1⟩) rfl rfl rfl (fun _ => by show ¬ (1 : Int) ∈ ([0] : List Int); decide)⟩

/-- Claim C6: when exit-code checking is disabled for the call, a
child exiting with any code produces a successful return carrying the
captured (output, error) pair, no failure is raised, and the true exit
code is recorded in the `ret` attribute. -/
theorem c6_check_disabled_success (cfg : Command) (ov : Overrides)
    (children : Nat → ChildBehavior) (hext : ov.extra = [])
    (hchk : ov.check.getD cfg.check = false) :
    Command.get_output cfg ov children initState =
        some ⟨stateAfter (children 0), [Event.attemptStart 0, Event.spawn],
          .ok (joinLines (children 0).outLines, joinLines (children 0).errLines)⟩ ∧
      (stateAfter (children 0)).ret = some (children 0).code := by
  refine ⟨?_, rfl⟩
  rw [Command.get_output, Command.getOutputAux,
    get_output_once_nocheck cfg initState ov (children 0) hext hchk]
  simp

theorem c6_witness :
    (noOverrides.check.getD (⟨false, [0], 3, 1, false⟩ : Command).check = false) ∧
      (Command.get_output ⟨false, [0], 3, 1, false⟩ noOverrides
          (fun _ => ⟨["x"], ["y"], 7⟩) initState =
          some ⟨stateAfter ⟨["x"], ["y"], 7⟩, [Event.attemptStart 0, Event.spawn],
            .ok (joinLines ["x"], joinLines ["y"])⟩ ∧
        (stateAfter (⟨["x"], ["y"], 7⟩ : ChildBehavior)).ret = some 7) :=
  ⟨rfl, c6_check_disabled_success ⟨false, [0], 3, 1, false⟩ noOverrides
    (fun _ => ⟨["x"], ["y"], 7⟩) rfl rfl⟩

/-- Claim C7 counterexample: calling `Command.execute` directly with
checking enabled raises a policy failure whose detail has `out` and
`err` equal to `None` — `execute` resets them and only
`_get_output_once` fills them — so on that invocation path the failure
does not carry the captured output text, although lines were captured. -/
theorem c7_direct_execute_detail_lacks_output :
    Command.execute ⟨true, [0], 0, 0, false⟩ initState noOverrides ⟨["hello", ""], ["oops", ""], 1⟩ =
        ⟨⟨some 1, none, none, false⟩, true, .error (.cmdFailed ⟨some 1, none, none⟩)⟩ ∧
      (FailDetail.mk (some 1) none none).out ≠ some (joinLines ["hello", ""]) := by
  constructor
  · rfl
  · decide

/-- Claim C7 (amended): with exit-code checking enabled and the code
outside the accepted set, the failures raised on the `get_output` and
`__call__` paths carry the exit code together with the full captured
output and error texts; on a direct `Command.execute` call the failure
carries the exit code but `out` and `err` are `None` (reset and never
repopulated on that path). -/
theorem c7_failure_detail_by_path (cfg : Command) (ov : Overrides)
    (children : Nat → ChildBehavior) (child : ChildBehavior) (st : CmdState)
    (hR0 : cfg.retry_times = 0) (hext : ov.extra = [])
    (hchk : ov.check.getD cfg.check = true)
    (hfail : ∀ i, (children i).code ∉ ov.allowed_retval.getD cfg.allowed_retval)
    (hfail1 : child.code ∉ ov.allowed_retval.getD cfg.allowed_retval) :
    (∃ g : GOOutcome, Command.get_output cfg ov children initState = some g ∧
        g.result = .error (.cmdFailed ⟨some (children 0).code,
          some (joinLines (children 0).outLines), some (joinLines (children 0).errLines)⟩)) ∧
      (∃ r, Command.call cfg ov children initState = some r ∧
        r.2.2 = .error (.cmdFailed ⟨some (children 0).code,
          some (joinLines (children 0).outLines), some (joinLines (children 0).errLines)⟩)) ∧
      Command.execute cfg st ov child =
        ⟨⟨some child.code, none, none, false⟩, true,
          .error (.cmdFailed ⟨some child.code, none, none⟩)⟩ := by
  have hgo : Command.get_output cfg ov children initState =
      some ⟨stateAfter (children 0), [Event.attemptStart 0, Event.spawn],
        .error (.cmdFailed (detailOf (children 0)))⟩ := by
    rw [Command.get_output, hR0,
      getOutputAux_allfail cfg ov children hext hchk hfail 0 0 initState (by omega)]
    simp [failTrace_zero]
  refine ⟨⟨_, hgo, rfl⟩, ⟨_, by rw [Command.call, hgo], rfl⟩, ?_⟩
  simp [Command.execute, hext, hchk, Command.check_return_value, List.mem_map, hfail1]

theorem c7_witness :
    ((⟨true, [0], 0, 0, false⟩ : Command).retry_times = 0) ∧
      ((∃ g : GOOutcome, Command.get_output ⟨true, [0], 0, 0, false⟩ noOverrides
            (fun _ => ⟨["hello", ""], ["oops", ""], 1⟩) initState = some g ∧
          g.result = .error (.cmdFailed ⟨some 1, some (joinLines ["hello", ""]),
            some (joinLines ["oops", ""])⟩)) ∧
        (∃ r, Command.call ⟨true, [0], 0, 0, false⟩ noOverrides
            (fun _ => ⟨["hello", ""], ["oops", ""], 1⟩) initState = some r ∧
          r.2.2 = .error (.cmdFailed ⟨some 1, some (joinLines ["hello", ""]),
            some (joinLines ["oops", ""])⟩)) ∧
        Command.execute ⟨true, [0], 0, 0, false⟩ initState noOverrides
            ⟨["hello", ""], ["oops", ""], 1⟩ =
          ⟨⟨some 1, none, none, false⟩, true, .error (.cmdFailed ⟨some 1, none, none⟩)⟩) :=
  ⟨rfl, c7_failure_detail_by_path ⟨true, [0], 0, 0, false⟩ noOverrides
    (fun _ => ⟨["hello", ""], ["oops", ""], 1⟩) ⟨["hello", ""], ["oops", ""], 1⟩ initState
    rfl rfl rfl (fun _ => by show ¬ (1 : Int) ∈ ([0] : List Int); decide) (by decide)⟩

/-- Claim C8: an invocation passing an unrecognised keyword name
raises a `TypeError` before any child process is spawned, on each of
the three surfaces (`execute`, `get_output`, `__call__`): the state is
untouched and the event trace contains no spawn. -/
theorem c8_unknown_override_rejected (cfg : Command) (ov : Overrides)
    (children : Nat → ChildBehavior) (child : ChildBehavior) (st : CmdState)
    (k : String) (ks : List String) (hext : ov.extra = k :: ks) :
    Command.execute cfg st ov child = ⟨st, false, .error (.typeError k)⟩ ∧
      Command.get_output cfg ov children initState =
        some ⟨initState, [Event.attemptStart 0], .error (.typeError k)⟩ ∧
      Command.call cfg ov children initState =
        some (initState, [Event.attemptStart 0], .error (.typeError k)) := by
  have hgo : Command.get_output cfg ov children initState =
      some ⟨initState, [Event.attemptStart 0], .error (.typeError k)⟩ := by
    rw [Command.get_output, Command.getOutputAux,
      get_output_once_typeError cfg initState ov (children 0) k ks hext]
    simp
  exact ⟨by simp [Command.execute, hext], hgo, by rw [Command.call, hgo]⟩

theorem c8_witness :
    ((Overrides.mk none none ["bogus"]).extra = "bogus" :: []) ∧
      (Command.execute ⟨true, [0], 1, 0, false⟩ initState (Overrides.mk none none ["bogus"])
          ⟨["a"], ["b"], 0⟩ = ⟨initState, false, .error (.typeError "bogus")⟩ ∧
        Command.get_output ⟨true, [0], 1, 0, false⟩ (Overrides.mk none none ["bogus"])
            (fun _ => ⟨["a"], ["b"], 0⟩) initState =
          some ⟨initState, [Event.attemptStart 0], .error (.typeError "bogus")⟩ ∧
        Command.call ⟨true, [0], 1, 0, false⟩ (Overrides.mk none none ["bogus"])
            (fun _ => ⟨["a"], ["b"], 0⟩) initState =
          some (initState, [Event.attemptStart 0], .error (.typeError "bogus"))) :=
  ⟨rfl, c8_unknown_override_rejected ⟨true, [0], 1, 0, false⟩ (Overrides.mk none none ["bogus"])
    (fun _ => ⟨["a"], ["b"], 0⟩) ⟨["a"], ["b"], 0⟩ initState "bogus" [] rfl⟩

/-- Claim C10: whenever `get_output` raises a policy failure or the
retries-exhausted failure, the `Command` object still exposes the last
attempt's results: `ret` holds that attempt's exit code, `out` and
`err` hold the newline-joined captured lines of that attempt, and the
pipe handle is cleared. -/
theorem c10_failure_exposes_last_attempt (cfg : Command) (ov : Overrides)
    (children : Nat → ChildBehavior) (hext : ov.extra = [])
    (hchk : ov.check.getD cfg.check = true)
    (hfail : ∀ i, (children i).code ∉ ov.allowed_retval.getD cfg.allowed_retval) :
    ∃ g : GOOutcome, Command.get_output cfg ov children initState = some g ∧
      (g.result = .error (.cmdFailed (detailOf (children cfg.retry_times))) ∨
        g.result = .error (.maxRetry (detailOf (children cfg.retry_times)))) ∧
      g.state.ret = some (children cfg.retry_times).code ∧
      g.state.out = some (joinLines (children cfg.retry_times).outLines) ∧
      g.state.err = some (joinLines (children cfg.retry_times).errLines) ∧
      g.state.pipeLive = false := by
  have h := getOutputAux_allfail cfg ov children hext hchk hfail cfg.retry_times 0 initState
    (by omega)
  simp only [Nat.zero_add] at h
  refine ⟨_, by rw [Command.get_output]; exact h, ?_, rfl, rfl, rfl, rfl⟩
  by_cases hR : cfg.retry_times = 0
  · left
    simp [hR]
  · right
    simp [hR]

theorem c10_witness :
    (∀ i : Nat, ((fun _ => (⟨["a"], ["b"], 1⟩ : ChildBehavior)) i).code ∉
        (noOverrides.allowed_retval.getD (⟨true, [0], 1, 0, false⟩ : Command).allowed_retval)) ∧
      ∃ g : GOOutcome, Command.get_output ⟨true, [0], 1, 0, false⟩ noOverrides
          (fun _ => ⟨["a"], ["b"], 1⟩) initState = some g ∧
        (g.result = .error (.cmdFailed (detailOf ⟨["a"], ["b"], 1⟩)) ∨
          g.result = .error (.maxRetry (detailOf ⟨["a"], ["b"], 1⟩))) ∧
        g.state.ret = some 1 ∧
        g.state.out = some (joinLines ["a"]) ∧
        g.state.err = some (joinLines ["b"]) ∧
        g.state.pipeLive = false :=
  ⟨fun _ => by show ¬ (1 : Int) ∈ ([0] : List Int); decide, c10_failure_exposes_last_attempt ⟨true, [0], 1, 0, false⟩ noOverrides
    (fun _ => ⟨["a"], ["b"], 1⟩) rfl rfl (fun _ => by show ¬ (1 : Int) ∈ ([0] : List Int); decide)⟩

/-! ## Quoting round-trip (claim C4) -/

theorem shellFieldsAux_single_consume (s : List Char) :
    ∀ acc, shellFieldsAux .single (s.flatMap shellEsc ++ [SQ]) true acc = some [acc ++ s] := by
  induction s with
  | nil =>
    intro acc
    simp [shellFieldsAux, shellEsc]
  | cons c s ih =>
    intro acc
    by_cases hc : c = SQ
    · subst hc
      have e1 : (decide (BSL = SP) || decide (BSL = TAB)) = false := by decide
      have e2 : decide (BSL = BSL) = true := by decide
      have e3 : (decide (SQ = SP) || decide (SQ = TAB)) = false := by decide
      have e4 : decide (SQ = BSL) = false := by decide
      have e5 : decide (SQ = SQ) = true := by decide
      simp only [List.flatMap_cons, shellEsc, if_pos rfl, List.append_assoc, List.cons_append,
        List.nil_append, shellFieldsAux, e1, e2, e3, e4, e5, Bool.false_eq_true, if_false,
        if_true, List.append_eq, List.singleton_append, List.flatMap_def]
      have ih' := ih (acc ++ [SQ])
      simp only [List.flatMap_def] at ih'
      rw [shellFieldsAux.eq_def]
      simp only [e3, e4, e5, Bool.false_eq_true, if_false, if_true]
      rw [ih']
      simp
      intro h
      exact absurd h (by decide)
    · have e0 : decide (c = SQ) = false := by simp [hc]
      simp only [List.flatMap_cons, shellEsc, hc, if_false, List.cons_append, List.nil_append,
        shellFieldsAux, e0, Bool.false_eq_true]
      rw [ih (acc ++ [c])]
      simp

/-- Claim C4: for every null-free string, POSIX quote removal and
field splitting applied to `shell_quote` of the string yields exactly
the original string as a single field: the quoted form (single quotes
around the text, each embedded quote rendered as close-quote,
backslash-escaped quote, reopen-quote) round-trips under shell
unquoting. -/
theorem c4_shell_quote_roundtrip (s : List Char) (_hnull : ∀ c ∈ s, c ≠ Char.ofNat 0) :
    shellFields (shell_quote s) = some [s] := by
  rw [shellFields, shell_quote]
  simp only [List.append_assoc, List.singleton_append, List.cons_append, List.nil_append]
  have step : shellFieldsAux .normal (SQ :: (s.flatMap shellEsc ++ [SQ])) false [] =
      shellFieldsAux .single (s.flatMap shellEsc ++ [SQ]) true [] := by
    rw [shellFieldsAux.eq_def]
    exact rfl
  rw [step, shellFieldsAux_single_consume s []]
  simp

theorem c4_witness :
    (∀ c ∈ [Char.ofNat 97, SQ, Char.ofNat 98, SP, Char.ofNat 99], c ≠ Char.ofNat 0) ∧
      shellFields (shell_quote [Char.ofNat 97, SQ, Char.ofNat 98, SP, Char.ofNat 99]) =
        some [[Char.ofNat 97, SQ, Char.ofNat 98, SP, Char.ofNat 99]] :=
  ⟨by decide, c4_shell_quote_roundtrip [Char.ofNat 97, SQ, Char.ofNat 98, SP, Char.ofNat 99]
    (by decide)⟩

/-! ## Line splitting lemmas (claim C1) -/

theorem splitNL_eq_splitF (s : List Char) : splitNL s = (splitF s).1 ++ [(splitF s).2] := by
  induction s with
  | nil => rfl
  | cons c r ih =>
    by_cases hc : c = NL
    · simp [splitNL, splitF, hc, ih]
    · cases hF : (splitF r).1 with
      | nil =>
        simp [splitNL, splitF, hc, ih, hF, consHead]
      | cons l ls =>
        simp [splitNL, splitF, hc, ih, hF, consHead]

theorem lastD_concat (xs : List (List Char)) (x : List Char) : lastD (xs ++ [x]) = x := by
  induction xs with
  | nil => rfl
  | cons a xs ih =>
    cases xs with
    | nil => rfl
    | cons b ys => simpa [lastD, List.cons_append] using ih

theorem dropLast_splitNL (s : List Char) : (splitNL s).dropLast = (splitF s).1 := by
  rw [splitNL_eq_splitF, List.dropLast_concat]

theorem lastD_splitNL (s : List Char) : lastD (splitNL s) = (splitF s).2 := by
  rw [splitNL_eq_splitF, lastD_concat]

theorem splitF_append (a b : List Char) :
    splitF (a ++ b) =
      ((splitF a).1 ++ (splitF ((splitF a).2 ++ b)).1, (splitF ((splitF a).2 ++ b)).2) := by
  induction a with
  | nil => simp [splitF]
  | cons c a ih =>
    by_cases hc : c = NL
    · simp [splitF, hc, ih]
    · cases hF : (splitF a).1 with
      | nil =>
        cases hX : (splitF ((splitF a).2 ++ b)).1 <;>
          simp [splitF, hc, ih, hF, hX, List.cons_append]
      | cons l ls =>
        simp [splitF, hc, ih, hF, List.cons_append]

theorem splitF_snd_no_NL (s : List Char) : NL ∉ (splitF s).2 := by
  induction s with
  | nil => simp [splitF]
  | cons c r ih =>
    by_cases hc : c = NL
    · simpa [splitF, hc] using ih
    · cases hF : (splitF r).1 with
      | nil =>
        simp [splitF, hc, hF]
        exact ⟨fun h => hc h.symm, ih⟩
      | cons l ls => simpa [splitF, hc, hF] using ih

theorem splitF_no_NL (s : List Char) (h : NL ∉ s) : splitF s = ([], s) := by
  induction s with
  | nil => rfl
  | cons c r ih =>
    have hc : ¬ c = NL := fun he => h (he ▸ List.mem_cons_self c r)
    have hr : NL ∉ r := fun hm => h (List.mem_cons_of_mem c hm)
    simp [splitF, hc, ih hr]

theorem splitNL_no_NL (s : List Char) (h : NL ∉ s) : splitNL s = [s] := by
  rw [splitNL_eq_splitF, splitF_no_NL s h]
  rfl

theorem runChunksChars_eq (ds : List (List Char)) :
    ∀ st : StreamLineProcessor, (∀ d ∈ ds, d ≠ []) → NL ∉ st.buf →
      runChunksChars st ds = splitNL (st.buf ++ ds.flatten) := by
  induction ds with
  | nil =>
    intro st _ hbuf
    simp [runChunksChars, processChars, splitNL_no_NL st.buf hbuf]
  | cons d ds ih =>
    intro st hne hbuf
    have hd : d ≠ [] := hne d (List.mem_cons_self d ds)
    rw [runChunksChars]
    by_cases hNL : NL ∈ st.buf ++ d
    · have hproc : processChars st d =
          ((splitNL (st.buf ++ d)).dropLast, ⟨lastD (splitNL (st.buf ++ d))⟩, false) := by
        simp [processChars, hd, hNL]
      rw [hproc]
      have hrec := ih ⟨lastD (splitNL (st.buf ++ d))⟩
        (fun x hx => hne x (List.mem_cons_of_mem d hx))
        (by rw [lastD_splitNL]; exact splitF_snd_no_NL (st.buf ++ d))
      simp only [Bool.false_eq_true, if_false, hrec]
      simp only [List.flatten_cons, dropLast_splitNL, lastD_splitNL]
      rw [show st.buf ++ (d ++ ds.flatten) = st.buf ++ d ++ ds.flatten from
        (List.append_assoc _ _ _).symm]
      rw [splitNL_eq_splitF, splitNL_eq_splitF, splitF_append (st.buf ++ d) ds.flatten]
      simp [List.append_assoc]
    · have hproc : processChars st d = ([], ⟨st.buf ++ d⟩, false) := by
        simp [processChars, hd, hNL]
      rw [hproc]
      have hrec := ih ⟨st.buf ++ d⟩ (fun x hx => hne x (List.mem_cons_of_mem d hx)) hNL
      simp only [Bool.false_eq_true, if_false, hrec, List.nil_append]
      simp [List.flatten_cons, List.append_assoc]

theorem utf8ReplaceDecode_ne_nil (d : List Nat) (hd : d ≠ []) : utf8ReplaceDecode d ≠ [] := by
  cases d with
  | nil => exact absurd rfl hd
  | cons b r =>
    rw [utf8ReplaceDecode.eq_def]
    repeat' split
    all_goals simp_all

theorem process_eq_processChars (st : StreamLineProcessor) (d : List Nat) :
    StreamLineProcessor.process st d = processChars st (utf8ReplaceDecode d) := by
  by_cases hd : d = []
  · subst hd
    rfl
  · simp [StreamLineProcessor.process, processChars, hd, utf8ReplaceDecode_ne_nil d hd]

theorem runChunks_eq_chars (ds : List (List Nat)) :
    ∀ st : StreamLineProcessor, runChunks st ds = runChunksChars st (ds.map utf8ReplaceDecode) := by
  induction ds with
  | nil => intro st; rfl
  | cons d ds ih =>
    intro st
    rw [runChunks, List.map_cons, runChunksChars, process_eq_processChars]
    cases h : (processChars st (utf8ReplaceDecode d)).2.2 <;> simp [h, ih]

/-- Claim C1 counterexample: the byte stream of the text caf-e-acute
followed by a newline, split so the two bytes of the e-acute character
fall into different reads, makes the handler see replacement
characters where the single-shot read (whole stream decoded at once,
then split on newline) sees the real character: chunk-wise permissive
decoding is not split-invariant, so the delivered lines differ from
the single-shot split. -/
theorem c1_split_multibyte_differs :
    (∀ c ∈ [[0x63, 0x61, 0x66, 0xC3], [0xA9, 0x0A]], c ≠ ([] : List Nat)) ∧
      runChunks ⟨[]⟩ [[0x63, 0x61, 0x66, 0xC3], [0xA9, 0x0A]] ≠
        splitNL (utf8ReplaceDecode ([[0x63, 0x61, 0x66, 0xC3], [0xA9, 0x0A]] :
          List (List Nat)).flatten) := by
  decide

/-- Claim C1 (amended): for every byte stream and every split into
successive non-empty chunks such that chunk-wise permissive decoding
agrees with whole-stream decoding (in particular whenever no
multi-byte UTF-8 sequence straddles a chunk boundary, e.g. any ASCII
stream), the handler receives exactly the lines of a single-shot read
followed by a split on newline: one call per completed line, in
order, and one final call with the buffered fragment (possibly empty)
at the zero-byte read. -/
theorem c1_chunked_lines_eq_single_shot (chunks : List (List Nat))
    (hne : ∀ d ∈ chunks, d ≠ [])
    (hcommute : utf8ReplaceDecode chunks.flatten = (chunks.map utf8ReplaceDecode).flatten) :
    runChunks ⟨[]⟩ chunks = splitNL (utf8ReplaceDecode chunks.flatten) := by
  rw [runChunks_eq_chars, hcommute,
    runChunksChars_eq (chunks.map utf8ReplaceDecode) ⟨[]⟩ ?_ (by simp)]
  · simp
  · intro x hx
    obtain ⟨d, hd, rfl⟩ := List.mem_map.mp hx
    exact utf8ReplaceDecode_ne_nil d (hne d hd)

theorem c1_witness :
    (∀ c ∈ [[104, 105, 10], [33, 10], [63]], c ≠ ([] : List Nat)) ∧
      utf8ReplaceDecode ([[104, 105, 10], [33, 10], [63]] : List (List Nat)).flatten =
        (([[104, 105, 10], [33, 10], [63]] : List (List Nat)).map utf8ReplaceDecode).flatten ∧
      runChunks ⟨[]⟩ [[104, 105, 10], [33, 10], [63]] =
        splitNL (utf8ReplaceDecode ([[104, 105, 10], [33, 10], [63]] : List (List Nat)).flatten) :=
  ⟨by decide, by decide,
    c1_chunked_lines_eq_single_shot [[104, 105, 10], [33, 10], [63]] (by decide) (by decide)⟩

/-! ## Draining-loop lemmas (claim C9) -/

theorem readProc_some_eq (p p' : Proc) (h : (readProc p).2 = some p') :
    p' = ⟨p.tag, (p.slp.process (p.chunks.headD [])).2.1, p.chunks.tail⟩ ∧
      (p.slp.process (p.chunks.headD [])).2.2 = false := by
  simp only [readProc] at h
  split at h
  · exact absurd h (by simp)
  · rename_i hcond
    cases h
    exact ⟨rfl, by simpa using hcond⟩

theorem procLines_step (p : Proc) :
    procLines p = (readProc p).1 ++ (match (readProc p).2 with
      | none => []
      | some p' => procLines p') := by
  cases hc : p.chunks with
  | nil =>
    simp [procLines, runChunks, readProc, hc, StreamLineProcessor.process]
  | cons c cs =>
    cases hr : (StreamLineProcessor.process p.slp c).2.2
    · simp [procLines, runChunks, readProc, hc, hr]
    · simp [procLines, runChunks, readProc, hc, hr]

theorem eventsFor_append (t : Nat) (a b : List (Nat × List Char)) :
    eventsFor t (a ++ b) = eventsFor t a ++ eventsFor t b := by
  simp [eventsFor, List.filter_append]

theorem eventsFor_tagged_same (t : Nat) (em : List (List Char)) :
    eventsFor t (em.map (fun l => (t, l))) = em := by
  simp [eventsFor, List.filter_map, Function.comp, List.map_map]

theorem eventsFor_tagged_other (t u : Nat) (em : List (List Char)) (h : ¬ u = t) :
    eventsFor t (em.map (fun l => (u, l))) = [] := by
  simp [eventsFor, List.filter_map, Function.comp, h]

theorem eventsFor_expectedAll_not_mem (t : Nat) (ps : List Proc)
    (h : t ∉ ps.map Proc.tag) : eventsFor t (expectedAll ps) = [] := by
  induction ps with
  | nil => rfl
  | cons p ps ih =>
    have h1 : ¬ p.tag = t := fun he => h (by simp [he])
    have h2 : t ∉ ps.map Proc.tag := fun hm => h (by simp [hm])
    simp only [expectedAll] at ih ⊢
    rw [List.flatMap_cons, eventsFor_append, eventsFor_tagged_other t p.tag (procLines p) h1,
      ih h2]
    rfl

theorem eventsFor_processReady_not_mem (t : Nat) :
    ∀ (ps : List Proc) (mask : List Bool), t ∉ ps.map Proc.tag →
      eventsFor t (processReady ps mask).2 = [] := by
  intro ps
  induction ps with
  | nil => intro mask _; cases mask <;> rfl
  | cons p ps ih =>
    intro mask h
    have h1 : ¬ p.tag = t := fun he => h (by simp [he])
    have h2 : t ∉ ps.map Proc.tag := fun hm => h (by simp [hm])
    cases mask with
    | nil => rfl
    | cons s m =>
      cases s
      · simp [processReady, ih m h2]
      · cases hrp : (readProc p).2 with
        | none =>
          simp [processReady, hrp, eventsFor_append,
            eventsFor_tagged_other t p.tag _ h1, ih m h2]
        | some p' =>
          simp [processReady, hrp, eventsFor_append,
            eventsFor_tagged_other t p.tag _ h1, ih m h2]

theorem processReady_tags_sublist :
    ∀ (ps : List Proc) (mask : List Bool),
      ((processReady ps mask).1.map Proc.tag).Sublist (ps.map Proc.tag) := by
  intro ps
  induction ps with
  | nil => intro mask; cases mask <;> simp [processReady]
  | cons p ps ih =>
    intro mask
    cases mask with
    | nil => simp [processReady]
    | cons s m =>
      cases s
      · simp only [processReady, Bool.false_eq_true, if_false, List.map_cons]
        exact List.Sublist.cons₂ p.tag (ih m)
      · cases hrp : (readProc p).2 with
        | none =>
          simp only [processReady, hrp, if_true, List.map_cons]
          exact List.Sublist.cons p.tag (ih m)
        | some p' =>
          have ht := (readProc_some_eq p p' hrp).1
          simp only [processReady, hrp, if_true, List.map_cons]
          rw [ht]
          exact List.Sublist.cons₂ p.tag (ih m)

theorem totalReads_pos (p : Proc) (ps : List Proc) : 0 < totalReads (p :: ps) := by
  simp [totalReads]

theorem totalReads_cons (p : Proc) (ps : List Proc) :
    totalReads (p :: ps) = p.chunks.length + 1 + totalReads ps := by
  simp [totalReads]

def countTrue : List Bool → Nat
  | [] => 0
  | true :: m => countTrue m + 1
  | false :: m => countTrue m

theorem countTrue_pos (mask : List Bool) (h : true ∈ mask) : 1 ≤ countTrue mask := by
  induction mask with
  | nil => cases h
  | cons s m ih =>
    cases s
    · have hm : true ∈ m := by simpa using h
      simpa [countTrue] using ih hm
    · simp [countTrue]

theorem processReady_totalReads :
    ∀ (ps : List Proc) (mask : List Bool), mask.length = ps.length →
      totalReads (processReady ps mask).1 + countTrue mask ≤ totalReads ps := by
  intro ps
  induction ps with
  | nil =>
    intro mask hlen
    have hm : mask = [] := List.length_eq_zero.mp hlen
    subst hm
    simp [processReady, totalReads, countTrue]
  | cons p ps ih =>
    intro mask hlen
    cases mask with
    | nil => simp at hlen
    | cons s m =>
      have hm : m.length = ps.length := by simpa using hlen
      have hih := ih m hm
      cases s
      · simp only [processReady, Bool.false_eq_true, if_false, countTrue, totalReads_cons]
        omega
      · cases hrp : (readProc p).2 with
        | none =>
          simp only [processReady, hrp, if_true, countTrue, totalReads_cons]
          omega
        | some p' =>
          obtain ⟨hp', hflag⟩ := readProc_some_eq p p' hrp
          have hne : p.chunks ≠ [] := by
            intro hnil
            rw [hnil] at hflag
            simp [StreamLineProcessor.process] at hflag
          obtain ⟨c, cs, hc⟩ := List.exists_cons_of_ne_nil hne
          simp only [processReady, hrp, if_true, countTrue, totalReads_cons]
          subst hp'
          simp only [hc, List.tail_cons, List.length_cons]
          omega

theorem expectedAll_cons (p : Proc) (ps : List Proc) :
    expectedAll (p :: ps) = (procLines p).map (fun l => (p.tag, l)) ++ expectedAll ps := by
  simp [expectedAll]

theorem processReady_expected (t : Nat) :
    ∀ (ps : List Proc) (mask : List Bool), (ps.map Proc.tag).Nodup →
      eventsFor t (expectedAll ps) =
        eventsFor t (processReady ps mask).2 ++
          eventsFor t (expectedAll (processReady ps mask).1) := by
  intro ps
  induction ps with
  | nil => intro mask _; cases mask <;> rfl
  | cons p ps ih =>
    intro mask hnd
    have hnd2 : (ps.map Proc.tag).Nodup := by
      rw [List.map_cons] at hnd
      exact hnd.of_cons
    have hpt : p.tag ∉ ps.map Proc.tag := by
      rw [List.map_cons] at hnd
      exact (List.nodup_cons.mp hnd).1
    cases mask with
    | nil => simp [processReady, eventsFor]
    | cons s m =>
      cases s
      · simp only [processReady, Bool.false_eq_true, if_false]
        rw [expectedAll_cons, expectedAll_cons, eventsFor_append, eventsFor_append]
        by_cases ht : p.tag = t
        · subst ht
          have hA := eventsFor_expectedAll_not_mem p.tag ps hpt
          have hB := eventsFor_processReady_not_mem p.tag ps m hpt
          have hC := eventsFor_expectedAll_not_mem p.tag (processReady ps m).1
            (fun hmem => hpt ((processReady_tags_sublist ps m).subset hmem))
          rw [hA, hB, hC]
          simp
        · rw [eventsFor_tagged_other t p.tag (procLines p) ht]
          simp only [List.nil_append]
          exact ih m hnd2
      · cases hrp : (readProc p).2 with
        | none =>
          have hlines : procLines p = (readProc p).1 := by
            rw [procLines_step p, hrp]
            simp
          simp only [processReady, hrp, if_true]
          rw [expectedAll_cons, eventsFor_append, eventsFor_append, hlines, ih m hnd2]
          simp [List.append_assoc]
        | some p' =>
          have htag : p'.tag = p.tag := by rw [(readProc_some_eq p p' hrp).1]
          have hlines : procLines p = (readProc p).1 ++ procLines p' := by
            rw [procLines_step p, hrp]
          simp only [processReady, hrp, if_true]
          rw [expectedAll_cons, expectedAll_cons, eventsFor_append, eventsFor_append,
            eventsFor_append, hlines, List.map_append, eventsFor_append, htag]
          by_cases ht : p.tag = t
          · subst ht
            have hA := eventsFor_expectedAll_not_mem p.tag ps hpt
            have hB := eventsFor_processReady_not_mem p.tag ps m hpt
            have hC := eventsFor_expectedAll_not_mem p.tag (processReady ps m).1
              (fun hmem => hpt ((processReady_tags_sublist ps m).subset hmem))
            rw [hA, hB, hC]
            simp
          · rw [eventsFor_tagged_other t p.tag (readProc p).1 ht,
              eventsFor_tagged_other t p.tag (procLines p') ht]
            simp only [List.nil_append, List.append_nil]
            exact ih m hnd2

theorem loop_nil_procs (sched : List SelEvent) :
    Command.pipe_processor_loop sched [] = .ok ([], true) := by
  cases sched with
  | nil => rfl
  | cons e s => cases e <;> rfl

theorem loop_drains (sched : List SelEvent) :
    ∀ procs : List Proc, validSched sched procs = true →
      totalReads procs ≤ countReady sched → (procs.map Proc.tag).Nodup →
      ∃ evs, Command.pipe_processor_loop sched procs = .ok (evs, true) ∧
        ∀ t, eventsFor t evs = eventsFor t (expectedAll procs) := by
  induction sched with
  | nil =>
    intro procs _ hc _
    cases procs with
    | nil => exact ⟨[], rfl, fun t => rfl⟩
    | cons p ps =>
      have := totalReads_pos p ps
      simp [countReady] at hc
      omega
  | cons e sched ih =>
    intro procs hv hc hnd
    cases procs with
    | nil => exact ⟨[], loop_nil_procs _, fun t => rfl⟩
    | cons p ps =>
      cases e with
      | serr c =>
        rw [validSched] at hv
        simp at hv
        obtain ⟨hcE, hv2⟩ := hv
        rw [Command.pipe_processor_loop, if_pos hcE]
        exact ih (p :: ps) hv2 (by simpa [countReady] using hc) hnd
      | ready mask =>
        rw [validSched] at hv
        simp at hv
        obtain ⟨⟨hlen, hany⟩, hv2⟩ := hv
        have hdec := processReady_totalReads (p :: ps) mask hlen
        have hpos := countTrue_pos mask hany
        have hcount : totalReads (processReady (p :: ps) mask).1 ≤ countReady sched := by
          simp [countReady] at hc
          omega
        have hnd2 : ((processReady (p :: ps) mask).1.map Proc.tag).Nodup :=
          (processReady_tags_sublist (p :: ps) mask).nodup hnd
        obtain ⟨evs2, hloop, hevs⟩ := ih (processReady (p :: ps) mask).1 hv2 hcount hnd2
        refine ⟨(processReady (p :: ps) mask).2 ++ evs2, ?_, ?_⟩
        · rw [Command.pipe_processor_loop, hloop]
        · intro t
          rw [eventsFor_append, hevs t, processReady_expected t (p :: ps) mask hnd]

/-- Claim C9: the stream-draining loop retries the readiness wait on
`EINTR`, propagates any other wait failure immediately, and — for
every readiness schedule (any interleaving and relative pacing of the
streams, each wait reporting some non-empty subset of the still-open
readers) long enough to supply every read — terminates with all
processors drained, having delivered for each stream exactly the line
sequence its processor produces from its full chunk sequence, in
order (a reader is removed only when its processor reports
end-of-stream, so termination happens exactly when every stream has
reached end-of-stream). -/
theorem c9_pipe_processor_loop :
    (∀ (sched : List SelEvent) (procs : List Proc) (c : Nat), procs ≠ [] → c ≠ EINTR →
        Command.pipe_processor_loop (.serr c :: sched) procs = .error c) ∧
      (∀ (sched : List SelEvent) (procs : List Proc), procs ≠ [] →
        Command.pipe_processor_loop (.serr EINTR :: sched) procs =
          Command.pipe_processor_loop sched procs) ∧
      (∀ (sched : List SelEvent) (procs : List Proc),
        validSched sched procs = true → totalReads procs ≤ countReady sched →
        (procs.map Proc.tag).Nodup →
        ∃ evs, Command.pipe_processor_loop sched procs = .ok (evs, true) ∧
          ∀ t, eventsFor t evs = eventsFor t (expectedAll procs)) := by
  refine ⟨?_, ?_, fun sched procs hv hc hnd => loop_drains sched procs hv hc hnd⟩
  · intro sched procs c hne hc
    cases procs with
    | nil => exact absurd rfl hne
    | cons p ps => rw [Command.pipe_processor_loop, if_neg hc]
  · intro sched procs hne
    cases procs with
    | nil => exact absurd rfl hne
    | cons p ps => rw [Command.pipe_processor_loop, if_pos rfl]

theorem c9_witness :
    (([⟨0, ⟨[]⟩, [[104, 10]]⟩, ⟨1, ⟨[]⟩, [[121]]⟩] : List Proc) ≠ [] ∧ (9 : Nat) ≠ EINTR ∧
        Command.pipe_processor_loop [.serr 9]
          [⟨0, ⟨[]⟩, [[104, 10]]⟩, ⟨1, ⟨[]⟩, [[121]]⟩] = .error 9) ∧
      (Command.pipe_processor_loop [.serr EINTR]
          [⟨0, ⟨[]⟩, [[104, 10]]⟩, ⟨1, ⟨[]⟩, [[121]]⟩] =
        Command.pipe_processor_loop [] [⟨0, ⟨[]⟩, [[104, 10]]⟩, ⟨1, ⟨[]⟩, [[121]]⟩]) ∧
      (validSched
          [.ready [true, false], .serr 4, .ready [true, false], .ready [true], .ready [true]]
          [⟨0, ⟨[]⟩, [[104, 10]]⟩, ⟨1, ⟨[]⟩, [[121]]⟩] = true ∧
        ∃ evs, Command.pipe_processor_loop
            [.ready [true, false], .serr 4, .ready [true, false], .ready [true], .ready [true]]
            [⟨0, ⟨[]⟩, [[104, 10]]⟩, ⟨1, ⟨[]⟩, [[121]]⟩] = .ok (evs, true) ∧
          ∀ t, eventsFor t evs =
            eventsFor t (expectedAll [⟨0, ⟨[]⟩, [[104, 10]]⟩, ⟨1, ⟨[]⟩, [[121]]⟩])) :=
  ⟨⟨by decide, by decide,
      c9_pipe_processor_loop.1 [] [⟨0, ⟨[]⟩, [[104, 10]]⟩, ⟨1, ⟨[]⟩, [[121]]⟩] 9
        (by decide) (by decide)⟩,
    c9_pipe_processor_loop.2.1 [] [⟨0, ⟨[]⟩, [[104, 10]]⟩, ⟨1, ⟨[]⟩, [[121]]⟩] (by decide),
    by decide,
    c9_pipe_processor_loop.2.2
      [.ready [true, false], .serr 4, .ready [true, false], .ready [true], .ready [true]]
      [⟨0, ⟨[]⟩, [[104, 10]]⟩, ⟨1, ⟨[]⟩, [[121]]⟩] (by decide) (by decide) (by decide)⟩
